import Mathlib

/-!
# kool: the `run` command, the default cobra run function and the presets parser

A shallow embedding of three pieces of `marti1125/kool`:

* `cmd/run.go`          : `KoolRun.Execute`
* `cmd/root.go`         : `DefaultCommandRunFunction`
* `cmd/presets/parser.go` : `DefaultParser.Exists`, `DefaultParser.GetPresets`

Go code with side effects is embedded by explicit state passing over a world
state `σ`.  Calls made on collaborators that are only known through an
interface (`builder.Command`, `parser.Parser`, `KoolService`) are recorded in a
ghost list of calls, in the order in which the code makes them, so that
"is called", "is called before" and "is never called" become statements about
that list.  Interface methods are state transformers: a call returns to its
caller.  The one exception is `KoolService.Exit`, which either returns (the test
double `FakeExiter` of the repository records the exit code) or ends the
process (the exiter of a default service), see `ExitOutcome`.
-/

namespace Kool

/-! ## Go values shared by the models -/

/-- Non-nil values of the Go interface type `error`.  The two package level
variables of `cmd/run.go` made with `errors.New` are values of their own;
every error made elsewhere (parser package, builder package, child process) is
`other`, told apart by what identifies it.  The Go value `nil` is
`Option.none` of `Option GoError`. -/
inductive GoError where
  | ErrExtraArguments
  | ErrKoolScriptNotFound
  | other (id : String)
  deriving DecidableEq, Repr

/-- The method `Error()` of the error values. -/
def GoError.Error : GoError → String
  | .ErrExtraArguments =>
      "error: you cannot pass in extra arguments to multiple commands scripts"
  | .ErrKoolScriptNotFound => "script was not found in any kool.yml file"
  | .other id => id

/-! ## `cmd/run.go` -/

/-- The two methods of the interface `builder.Command` that `KoolRun.Execute`
uses.  `AppendArgs` mutates the command, `Interactive` runs it and returns its
error; both act on the world state. -/
structure Command (σ : Type) where
  AppendArgs : List String → σ → σ
  Interactive : σ → Option GoError × σ

/-- The interface `parser.Parser` as far as `KoolRun.Execute` uses it, together
with the predicate `parser.IsMultipleDefinedScriptError` of the same package
(the package is not among the sources, so the predicate is carried along). -/
structure Parser (σ : Type) where
  Parse : String → σ → (List (Command σ) × Option GoError) × σ
  IsMultipleDefinedScriptError : GoError → Bool

/-- A call made by `KoolRun.Execute` on a step of the pipeline; `step` is the
position of the command in `r.commands`, `ret` what `Interactive` returned. -/
inductive Call where
  | AppendArgs (step : Nat) (args : List String)
  | Interactive (step : Nat) (ret : Option GoError)
  deriving DecidableEq, Repr

/-- The struct `KoolRun`: the parser and the `commands` field.  The embedded
`DefaultKoolService` only serves `Warning` here, whose output is collected in
`Outcome.warnings`. -/
structure KoolRun (σ : Type) where
  parser : Parser σ
  commands : List (Command σ)

/-- What the `for ... range r.commands` loop leaves behind. -/
structure LoopResult (σ : Type) where
  err : Option GoError
  world : σ
  calls : List Call

/-- What one call of `KoolRun.Execute` leaves behind: the returned `err`, the
field `r.commands`, the world, the messages passed to `r.Warning` and the calls
made on the steps, both in the order they were made. -/
structure Outcome (σ : Type) where
  err : Option GoError
  commands : List (Command σ)
  world : σ
  warnings : List String
  calls : List Call

/-- The message of the warning in `KoolRun.Execute`. -/
def multipleDefinedWarning : String :=
  "Attention: the script was found in more than one kool.yml file"

/-- The calls of one iteration of the loop that precede `Interactive`
(run.go lines 77 to 79). -/
def appendCalls (args : List String) (i : Nat) : List Call :=
  if args.length > 0 then [Call.AppendArgs i args] else []

/-- The loop of `KoolRun.Execute` (run.go lines 76 to 85) over the commands from
position `i` on.  `err` is the named result at loop entry: it is what the final
bare `return` gives back when the loop body never assigns it. -/
def runCommands {σ : Type} (args : List String) :
    List (Command σ) → Nat → Option GoError → σ → LoopResult σ
  | [], _, err, w => { err := err, world := w, calls := [] }
  | command :: rest, i, _, w =>
    let w1 := if args.length > 0 then command.AppendArgs args w else w
    let res := command.Interactive w1
    match res.1 with
    | some e =>
      { err := some e, world := res.2,
        calls := appendCalls args i ++ [Call.Interactive i (some e)] }
    | none =>
      let tail := runCommands args rest (i + 1) none res.2
      { err := tail.err, world := tail.world,
        calls := appendCalls args i ++ Call.Interactive i none :: tail.calls }

/-- The part of `KoolRun.Execute` after the call of `Parse` was accepted
(run.go lines 66 to 86); `err` is the value the named result holds there. -/
def resolved {σ : Type} (commands : List (Command σ)) (err : Option GoError)
    (args : List String) (w : σ) (warnings : List String) : Outcome σ :=
  if commands.length = 0 then
    { err := some GoError.ErrKoolScriptNotFound, commands := commands, world := w,
      warnings := warnings, calls := [] }
  else if args.length > 0 ∧ commands.length > 1 then
    { err := some GoError.ErrExtraArguments, commands := commands, world := w,
      warnings := warnings, calls := [] }
  else
    let res := runCommands args commands 0 err w
    { err := res.err, commands := commands, world := res.world,
      warnings := warnings, calls := res.calls }

/-- The method `KoolRun.Execute` of run.go.  `none` is the run-time panic of
`originalArgs[0]` on an empty slice. -/
def KoolRun.Execute {σ : Type} (r : KoolRun σ) (originalArgs : List String) (w : σ) :
    Option (Outcome σ) :=
  match originalArgs with
  | [] => none
  | script :: args =>
    let p := r.parser.Parse script w
    match p.1.2 with
    | some e =>
      if r.parser.IsMultipleDefinedScriptError e then
        some (resolved p.1.1 (some e) args p.2 [multipleDefinedWarning])
      else
        some { err := some e, commands := p.1.1, world := p.2, warnings := [], calls := [] }
    | none => some (resolved p.1.1 none args p.2 [])

/-! ### A concrete world for examples

The builder package is not among the sources; the spec describes a step as a
program with its base arguments, `AppendArgs` as appending to them and
`Interactive` as launching the program with the resulting arguments. -/

/-- Modelled from the spec: the state of the steps of one pipeline (the type
behind `builder.Command` is missing from the sources).  `argv` holds, per step,
the program followed by its current arguments; `launched` is the list of
argument vectors handed to the process launch so far; `fails` gives, per step,
the error its process ends with. -/
structure StepWorld where
  argv : List (List String)
  launched : List (List String)
  fails : List (Option GoError)
  deriving DecidableEq, Repr

/-- Modelled from the spec: the command for step `i` of a `StepWorld` (the type
behind `builder.Command` is missing from the sources): `AppendArgs` appends to
the arguments of step `i` only, `Interactive` launches step `i` with its
current arguments and returns the error of that process. -/
def stepCommand (i : Nat) : Command StepWorld where
  AppendArgs := fun args w => { w with argv := w.argv.modify (fun a => a ++ args) i }
  Interactive := fun w =>
    ((w.fails.get? i).join, { w with launched := w.launched ++ [(w.argv.get? i).getD []] })

/-- A parser double: `Parse` returns the given commands and error whatever the
script name is and leaves the world alone; an error counts as "multiple
defined" exactly when it is `other "multiple"`. -/
def fixedParser (cmds : List (Command StepWorld)) (err : Option GoError) : Parser StepWorld where
  Parse := fun _ w => ((cmds, err), w)
  IsMultipleDefinedScriptError := fun e => decide (e = GoError.other "multiple")

/-- The error that `fixedParser` counts as "multiple defined". -/
def errMultiple : GoError := GoError.other "multiple"

/-- The scenario of the spec: the steps `echo start` and `echo end`, neither of
which fails. -/
def echoWorld : StepWorld :=
  { argv := [["echo", "start"], ["echo", "end"]], launched := [], fails := [none, none] }

/-- A `KoolRun` whose parser resolves every script to the two steps of
`echoWorld`. -/
def echoRun : KoolRun StepWorld :=
  { parser := fixedParser [stepCommand 0, stepCommand 1] none, commands := [] }

/-- A `KoolRun` whose parser resolves every script to the one step `echo end`
(step 1 of `echoWorld`) and gives the error `perr` along. -/
def singleRun (perr : Option GoError) : KoolRun StepWorld :=
  { parser := fixedParser [stepCommand 1] perr, commands := [] }

/-- Three steps of which the second ends with an error. -/
def failWorld : StepWorld :=
  { argv := [["make", "lint"], ["make", "test"], ["make", "push"]], launched := [],
    fails := [none, some (GoError.other "exit status 2"), none] }

/-- A `KoolRun` whose parser resolves every script to the three steps of
`failWorld` and gives the error `perr` along. -/
def failRun (perr : Option GoError) : KoolRun StepWorld :=
  { parser := fixedParser [stepCommand 0, stepCommand 1, stepCommand 2] perr, commands := [] }

/-! ## `cmd/root.go` -/

/-- The two methods of `cobra.Command` that the run function uses: the output
and input streams of the command, of types `ω` and `ρ`. -/
structure CobraCommand (ω ρ : Type) where
  OutOrStdout : ω
  InOrStdin : ρ

/-- How a call of `Exit` ends.  `Exit` is reached through the interface
`KoolService`, so root.go is the same code for both: the call returns to the
loop (`returned`; the test double `FakeExiter` of the repository records the
code and returns), or the process ends inside the call and nothing after it
runs (`ended`; the exiter of a default service, `shell.DefaultExiter`, of which
the spec says that the harness "exits the process").  Either way `w` is the
world the call leaves. -/
inductive ExitOutcome (σ : Type) where
  | returned (w : σ)
  | ended (w : σ)
  deriving DecidableEq, Repr

/-- The methods of the interface `KoolService` that the run function uses.
`Execute` returns the error of the service; all act on the world state, and
`Exit` says in addition whether it returns. -/
structure KoolService (σ ω ρ : Type) where
  SetWriter : ω → σ → σ
  SetReader : ρ → σ → σ
  Execute : List String → σ → Option GoError × σ
  Error : GoError → σ → σ
  Exit : Int → σ → ExitOutcome σ

/-- A call made by the run function on a service; `service` is the position of
the service in the list, `ret` what `Execute` returned. -/
inductive ServiceCall (ω ρ : Type) where
  | SetWriter (service : Nat) (out : ω)
  | SetReader (service : Nat) (inp : ρ)
  | Execute (service : Nat) (args : List String) (ret : Option GoError)
  | Error (service : Nat) (err : GoError)
  | Exit (service : Nat) (code : Int)
  deriving DecidableEq, Repr

/-- What one call of the run function leaves behind: the world, the calls made
on the services in the order they were made, and `exitCode`: `none` when the
function returned to its caller, `some code` when the process ended inside the
call `Exit(code)`. -/
structure RunResult (σ ω ρ : Type) where
  world : σ
  calls : List (ServiceCall ω ρ)
  exitCode : Option Int

/-- The loop of the function returned by `DefaultCommandRunFunction`
(root.go lines 35 to 43) over the services from position `i` on.  When the
call `service.Exit(1)` of line 41 ends the process, the remaining services are
not reached. -/
def runServices {σ ω ρ : Type} (cmd : CobraCommand ω ρ) (args : List String) :
    List (KoolService σ ω ρ) → Nat → σ → RunResult σ ω ρ
  | [], _, w => { world := w, calls := [], exitCode := none }
  | service :: rest, i, w =>
    let w1 := service.SetWriter cmd.OutOrStdout w
    let w2 := service.SetReader cmd.InOrStdin w1
    let res := service.Execute args w2
    match res.1 with
    | some err =>
      let w3 := service.Error err res.2
      match service.Exit 1 w3 with
      | ExitOutcome.returned w4 =>
        let tail := runServices cmd args rest (i + 1) w4
        { world := tail.world,
          calls := ServiceCall.SetWriter i cmd.OutOrStdout
            :: ServiceCall.SetReader i cmd.InOrStdin
            :: ServiceCall.Execute i args (some err) :: ServiceCall.Error i err
            :: ServiceCall.Exit i 1 :: tail.calls,
          exitCode := tail.exitCode }
      | ExitOutcome.ended w4 =>
        { world := w4,
          calls := [ServiceCall.SetWriter i cmd.OutOrStdout,
            ServiceCall.SetReader i cmd.InOrStdin,
            ServiceCall.Execute i args (some err), ServiceCall.Error i err,
            ServiceCall.Exit i 1],
          exitCode := some 1 }
    | none =>
      let tail := runServices cmd args rest (i + 1) res.2
      { world := tail.world,
        calls := ServiceCall.SetWriter i cmd.OutOrStdout
          :: ServiceCall.SetReader i cmd.InOrStdin
          :: ServiceCall.Execute i args none :: tail.calls,
        exitCode := tail.exitCode }

/-- The function `DefaultCommandRunFunction` of root.go: given the services, the
function of a cobra command and its arguments. -/
def DefaultCommandRunFunction {σ ω ρ : Type} (services : List (KoolService σ ω ρ)) :
    CobraCommand ω ρ → List String → σ → RunResult σ ω ρ :=
  fun cmd args w => runServices cmd args services 0 w

/-- The calls the claim expects for the service at position `i` when its
`Execute` returns `ret`: `SetWriter`, `SetReader`, `Execute(args)`, and, only
for a non-nil `ret`, `Error` with that error and `Exit` with code 1. -/
def serviceBlock {ω ρ : Type} (cmd : CobraCommand ω ρ) (args : List String)
    (i : Nat) (ret : Option GoError) : List (ServiceCall ω ρ) :=
  [ServiceCall.SetWriter i cmd.OutOrStdout, ServiceCall.SetReader i cmd.InOrStdin,
    ServiceCall.Execute i args ret] ++
  (match ret with
   | some err => [ServiceCall.Error i err, ServiceCall.Exit i 1]
   | none => [])

/-- What a list of calls does when it is made, call by call, on the services
starting in the world `w`: the world it leaves and the code of the `Exit` call
that ended the process, if one did.  The result is `none` when the list cannot
have been made: it names a service that is not there, it records for `Execute`
another result than `Execute` gives in the world reached, or it goes on after
an `Exit` call that ended the process. -/
def replay {σ ω ρ : Type} (services : List (KoolService σ ω ρ)) :
    List (ServiceCall ω ρ) → σ → Option (σ × Option Int)
  | [], w => some (w, none)
  | ServiceCall.SetWriter i out :: rest, w =>
    match services[i]? with
    | some s => replay services rest (s.SetWriter out w)
    | none => none
  | ServiceCall.SetReader i inp :: rest, w =>
    match services[i]? with
    | some s => replay services rest (s.SetReader inp w)
    | none => none
  | ServiceCall.Execute i args ret :: rest, w =>
    match services[i]? with
    | some s =>
      if (s.Execute args w).1 = ret then replay services rest (s.Execute args w).2 else none
    | none => none
  | ServiceCall.Error i err :: rest, w =>
    match services[i]? with
    | some s => replay services rest (s.Error err w)
    | none => none
  | ServiceCall.Exit i code :: rest, w =>
    match services[i]? with
    | some s =>
      match s.Exit code w with
      | ExitOutcome.returned w1 => replay services rest w1
      | ExitOutcome.ended w1 => if rest.isEmpty then some (w1, some code) else none
    | none => none

/-- A line written into the world by a `recordingService`: the name of the
service, the method called on it and what the method was given. -/
inductive Done where
  | SetWriter (name : String) (out : String)
  | SetReader (name : String) (inp : String)
  | Execute (name : String) (args : List String)
  | Error (name : String) (err : GoError)
  | Exit (name : String) (code : Int)
  deriving DecidableEq, Repr

/-- A service double that writes every call made on it into the world, a list
of lines: its `Execute` returns `ret`, and its `Exit` returns to the caller
like `FakeExiter` when `fake` holds and ends the process otherwise. -/
def recordingService (name : String) (ret : Option GoError) (fake : Bool) :
    KoolService (List Done) String String where
  SetWriter := fun out w => w ++ [Done.SetWriter name out]
  SetReader := fun inp w => w ++ [Done.SetReader name inp]
  Execute := fun args w => (ret, w ++ [Done.Execute name args])
  Error := fun err w => w ++ [Done.Error name err]
  Exit := fun code w =>
    if fake then ExitOutcome.returned (w ++ [Done.Exit name code])
    else ExitOutcome.ended (w ++ [Done.Exit name code])

/-- Modelled from the spec: a default service, whose exiter is
`shell.DefaultExiter` (missing from the sources).  The spec says of a failure
that the harness "exits the process with a non-zero status": `Exit` ends the
process. -/
def defaultService (name : String) (ret : Option GoError) :
    KoolService (List Done) String String :=
  recordingService name ret false

/-- A cobra command with its standard streams. -/
def stdCommand : CobraCommand String String :=
  { OutOrStdout := "stdout", InOrStdin := "stdin" }

/-! ## `cmd/presets/parser.go` -/

/-- A Go map with keys of type `string`: its entries, without a repeated key.
The order of `entries` is the order in which a `range` loop visits the map,
which Go leaves unspecified. -/
structure GoMap (V : Type) where
  entries : List (String × V)
  nodup : (entries.map Prod.fst).Nodup

/-- The Go expression `_, ok = m[key]`: whether `key` is in the map. -/
def GoMap.has {V : Type} (m : GoMap V) (key : String) : Bool :=
  (m.entries.lookup key).isSome

/-- The Go function `sort.Strings`: the strings in ascending order.  Go orders
strings by their bytes, which on UTF-8 text is the order by code points used
here. -/
def sortStrings (l : List String) : List String :=
  l.insertionSort (fun a b => a ≤ b)

/-- The struct `DefaultParser`: the presets, each a map from file name to file
content. -/
structure DefaultParser where
  Presets : GoMap (GoMap String)

/-- The method `DefaultParser.Exists` of parser.go. -/
def DefaultParser.Exists (p : DefaultParser) (preset : String) : Bool :=
  p.Presets.has preset

/-- The method `DefaultParser.GetPresets` of parser.go: nil for an empty map,
else the keys appended in iteration order and then sorted. -/
def DefaultParser.GetPresets (p : DefaultParser) : List String :=
  if p.Presets.entries.length = 0 then []
  else sortStrings (p.Presets.entries.foldl (fun presets kv => presets ++ [kv.1]) [])

/-- A parser with the presets `symfony` and `laravel`, visited in this order. -/
def twoPresets : DefaultParser :=
  { Presets :=
      { entries := [("symfony", { entries := [], nodup := List.nodup_nil }),
                    ("laravel", { entries := [("kool.yml", "scripts:")],
                                  nodup := by simp })],
        nodup := by simp } }

/-- The presets of `twoPresets`, visited in the opposite order. -/
def twoPresetsReversed : DefaultParser :=
  { Presets :=
      { entries := [("laravel", { entries := [("kool.yml", "scripts:")],
                                  nodup := by simp }),
                    ("symfony", { entries := [], nodup := List.nodup_nil })],
        nodup := by simp } }

/-! ### Views of the list of calls -/

/-- The `Interactive` calls of a list of calls, in order: step and result. -/
def interactiveCalls : List Call → List (Nat × Option GoError)
  | [] => []
  | Call.Interactive i ret :: tr => (i, ret) :: interactiveCalls tr
  | Call.AppendArgs _ _ :: tr => interactiveCalls tr

/-- The `AppendArgs` calls of a list of calls, in order: step and arguments. -/
def appendArgsCalls : List Call → List (Nat × List String)
  | [] => []
  | Call.AppendArgs i args :: tr => (i, args) :: appendArgsCalls tr
  | Call.Interactive _ _ :: tr => appendArgsCalls tr

/-- Whether `Execute` aborts on the error returned by `Parse`: it is non-nil
and `IsMultipleDefinedScriptError` does not hold of it. -/
def Parser.fatal {σ : Type} (p : Parser σ) : Option GoError → Bool
  | none => false
  | some e => !p.IsMultipleDefinedScriptError e

/-! ### Lemmas on the loop -/

theorem interactiveCalls_append (a b : List Call) :
    interactiveCalls (a ++ b) = interactiveCalls a ++ interactiveCalls b := by
  induction a with
  | nil => rfl
  | cons c a ih => cases c <;> simp [interactiveCalls, ih]

theorem appendArgsCalls_append (a b : List Call) :
    appendArgsCalls (a ++ b) = appendArgsCalls a ++ appendArgsCalls b := by
  induction a with
  | nil => rfl
  | cons c a ih => cases c <;> simp [appendArgsCalls, ih]

theorem interactiveCalls_appendCalls (args : List String) (i : Nat) :
    interactiveCalls (appendCalls args i) = [] := by
  unfold appendCalls
  split <;> rfl

theorem appendArgsCalls_appendCalls_length (args : List String) (i : Nat) :
    (appendArgsCalls (appendCalls args i)).length ≤ 1 := by
  unfold appendCalls
  split <;> simp [appendArgsCalls]

theorem appendCalls_nil (i : Nat) : appendCalls [] i = [] := rfl

theorem appendCalls_of_pos {args : List String} (h : args ≠ []) (i : Nat) :
    appendCalls args i = [Call.AppendArgs i args] := by
  unfold appendCalls
  rw [if_pos (List.length_pos.mpr h)]

theorem mem_interactiveCalls (tr : List Call) (i : Nat) (ret : Option GoError) :
    (i, ret) ∈ interactiveCalls tr ↔ Call.Interactive i ret ∈ tr := by
  induction tr with
  | nil => simp [interactiveCalls]
  | cons c tr ih => cases c <;> simp [interactiveCalls, ih]

/-- On a non-empty list the loop does not depend on the value of `err` at loop
entry: the first iteration assigns it. -/
theorem runCommands_entry_err {σ : Type} (args : List String) (cmds : List (Command σ))
    (h : cmds ≠ []) (i : Nat) (e1 e2 : Option GoError) (w : σ) :
    runCommands args cmds i e1 w = runCommands args cmds i e2 w := by
  cases cmds with
  | nil => exact absurd rfl h
  | cons c rest => rfl

/-- The `Interactive` calls of the loop over a non-empty list: the steps
`i, i+1, ...` up to some step `i+k`, all but the last returning nil and the last
returning what the loop returns; when the loop returns nil, every step ran. -/
theorem runCommands_interactive {σ : Type} (args : List String) (cmds : List (Command σ)) :
    cmds ≠ [] → ∀ (i : Nat) (e0 : Option GoError) (w : σ),
    ∃ k, k < cmds.length ∧
      interactiveCalls (runCommands args cmds i e0 w).calls
        = (List.range k).map (fun j => (i + j, (none : Option GoError)))
          ++ [(i + k, (runCommands args cmds i e0 w).err)] ∧
      ((runCommands args cmds i e0 w).err = none → k + 1 = cmds.length) := by
  induction cmds with
  | nil => intro h; exact absurd rfl h
  | cons c rest ih =>
    intro _ i e0 w
    simp only [runCommands]
    split
    · next e he =>
      refine ⟨0, by simp, ?_, ?_⟩
      · simp [interactiveCalls_append, interactiveCalls_appendCalls, interactiveCalls]
      · intro h; cases h
    · next he =>
      by_cases hr : rest = []
      · subst hr
        refine ⟨0, by simp, ?_, ?_⟩
        · simp [interactiveCalls_append, interactiveCalls_appendCalls, interactiveCalls,
            runCommands]
        · intro _; rfl
      · obtain ⟨k, hk, hc, hn⟩ := ih hr (i + 1) none
          (c.Interactive (if args.length > 0 then c.AppendArgs args w else w)).2
        refine ⟨k + 1, by simpa using hk, ?_, ?_⟩
        · simp only [interactiveCalls_append, interactiveCalls_appendCalls, interactiveCalls,
            List.nil_append, hc]
          rw [List.range_succ_eq_map]
          simp [Function.comp_def, Nat.add_assoc, Nat.add_comm 1]
        · intro h
          simpa using hn h

/-- The loop calls `AppendArgs` at most once per command. -/
theorem runCommands_appendArgs_length {σ : Type} (args : List String)
    (cmds : List (Command σ)) : ∀ (i : Nat) (e0 : Option GoError) (w : σ),
    (appendArgsCalls (runCommands args cmds i e0 w).calls).length ≤ cmds.length := by
  induction cmds with
  | nil => intro i e0 w; simp [runCommands, appendArgsCalls]
  | cons c rest ih =>
    intro i e0 w
    simp only [runCommands]
    have h1 := appendArgsCalls_appendCalls_length args i
    split
    · simp only [appendArgsCalls_append, appendArgsCalls, List.length_append, List.length_nil,
        List.length_cons]
      omega
    · have h2 := ih (i + 1) none
        (c.Interactive (if args.length > 0 then c.AppendArgs args w else w)).2
      rw [← List.singleton_append, ← List.append_assoc]
      simp only [appendArgsCalls_append, appendArgsCalls, List.length_append, List.length_nil,
        List.length_cons]
      omega

/-- Without extra arguments the loop never calls `AppendArgs`. -/
theorem runCommands_appendArgs_nil {σ : Type} (cmds : List (Command σ)) :
    ∀ (i : Nat) (e0 : Option GoError) (w : σ),
    appendArgsCalls (runCommands [] cmds i e0 w).calls = [] := by
  induction cmds with
  | nil => intro i e0 w; rfl
  | cons c rest ih =>
    intro i e0 w
    simp only [runCommands]
    split
    · simp [appendCalls_nil, appendArgsCalls]
    · have h2 := ih (i + 1) none (c.Interactive (if ([] : List String).length > 0 then
        c.AppendArgs [] w else w)).2
      simp only [appendCalls_nil, List.nil_append, appendArgsCalls]
      exact h2

/-- How `Execute` ends when `Parse` returned `cmds`, `perr` and the world `w1`:
a fatal error is returned as it is, everything else goes on to `resolved`, with
the warning when the error is non-nil. -/
theorem Execute_eq {σ : Type} (r : KoolRun σ) (script : String) (args : List String)
    (w w1 : σ) (cmds : List (Command σ)) (perr : Option GoError)
    (hp : r.parser.Parse script w = ((cmds, perr), w1)) :
    r.Execute (script :: args) w =
      some (if r.parser.fatal perr then
          { err := perr, commands := cmds, world := w1, warnings := [], calls := [] }
        else resolved cmds perr args w1
          (if perr.isSome then [multipleDefinedWarning] else [])) := by
  cases perr with
  | none => simp [KoolRun.Execute, hp, Parser.fatal]
  | some e =>
    cases hm : r.parser.IsMultipleDefinedScriptError e <;>
      simp [KoolRun.Execute, hp, Parser.fatal, hm]

/-! ### Theorems on `KoolRun.Execute` -/

/-- C1: when `Parse` returned a pipeline list that is not rejected before
execution (the parse error is not fatal, the list is not empty, and it is not
the case that extra arguments meet more than one step), `Execute` returns, and
its `Interactive` calls are exactly the steps `0, 1, ..., k` in this order, once
each, for some position `k` of the list: the steps before `k` returned nil, step
`k` returned the error that `Execute` returns, no later step is launched, and if
`Execute` returns nil then `k` is the last step, so every step ran exactly
once. -/
theorem Execute_fail_fast {σ : Type} (r : KoolRun σ) (script : String) (args : List String)
    (w w1 : σ) (cmds : List (Command σ)) (perr : Option GoError)
    (hp : r.parser.Parse script w = ((cmds, perr), w1))
    (hf : r.parser.fatal perr = false)
    (hne : cmds ≠ [])
    (hok : ¬ (args ≠ [] ∧ 1 < cmds.length)) :
    ∃ out, r.Execute (script :: args) w = some out ∧
      ∃ k, k < cmds.length ∧
        interactiveCalls out.calls
          = (List.range k).map (fun j => (j, (none : Option GoError))) ++ [(k, out.err)] ∧
        (out.err = none → k + 1 = cmds.length) := by
  refine ⟨_, Execute_eq r script args w w1 cmds perr hp, ?_⟩
  have hlen : ¬ cmds.length = 0 := fun h => hne (List.length_eq_zero.mp h)
  have hok2 : ¬ (args.length > 0 ∧ cmds.length > 1) := by
    rintro ⟨h1, h2⟩
    exact hok ⟨List.length_pos.mp h1, h2⟩
  obtain ⟨k, hk, hc, hn⟩ := runCommands_interactive args cmds hne 0 perr w1
  refine ⟨k, hk, ?_, ?_⟩
  · simp only [hf, resolved, if_neg hlen, if_neg hok2]
    simpa using hc
  · simp only [hf, resolved, if_neg hlen, if_neg hok2]
    simpa using hn

/-- C2: when at least one extra argument follows the script name and `Parse`
resolves (no fatal error) a pipeline of more than one step, `Execute` returns
`ErrExtraArguments` and makes no call on any step, neither `Interactive` nor
`AppendArgs`; the world is as `Parse` left it. -/
theorem Execute_extra_arguments {σ : Type} (r : KoolRun σ) (script : String)
    (args : List String) (w w1 : σ) (cmds : List (Command σ)) (perr : Option GoError)
    (hp : r.parser.Parse script w = ((cmds, perr), w1))
    (hf : r.parser.fatal perr = false)
    (hargs : args ≠ [])
    (hlen : 1 < cmds.length) :
    ∃ out, r.Execute (script :: args) w = some out ∧
      out.err = some GoError.ErrExtraArguments ∧
      out.calls = [] ∧ interactiveCalls out.calls = [] ∧ appendArgsCalls out.calls = [] ∧
      out.world = w1 := by
  refine ⟨_, Execute_eq r script args w w1 cmds perr hp, ?_⟩
  have h0 : ¬ cmds.length = 0 := by omega
  have h1 : args.length > 0 ∧ cmds.length > 1 := ⟨List.length_pos.mpr hargs, hlen⟩
  simp [hf, resolved, if_neg h0, if_pos h1, interactiveCalls, appendArgsCalls]

/-- C3: (1) with a non-empty list of extra arguments and a resolved pipeline of
exactly one step `c`, the calls of `Execute` are exactly `AppendArgs` on that
step with the extra arguments as given, followed by `Interactive` on that step,
which runs in the world that `AppendArgs` produced; (2) in every invocation at
most one `AppendArgs` call is made; (3) without extra arguments no `AppendArgs`
call is made. -/
theorem Execute_append_args {σ : Type} (r : KoolRun σ) (script : String)
    (args : List String) (w w1 : σ) (cmds : List (Command σ)) (perr : Option GoError)
    (hp : r.parser.Parse script w = ((cmds, perr), w1)) :
    ∃ out, r.Execute (script :: args) w = some out ∧
      (∀ c, r.parser.fatal perr = false → args ≠ [] → cmds = [c] →
        out.calls = [Call.AppendArgs 0 args,
          Call.Interactive 0 (c.Interactive (c.AppendArgs args w1)).1] ∧
        out.err = (c.Interactive (c.AppendArgs args w1)).1 ∧
        out.world = (c.Interactive (c.AppendArgs args w1)).2) ∧
      (appendArgsCalls out.calls).length ≤ 1 ∧
      (args = [] → appendArgsCalls out.calls = []) := by
  refine ⟨_, Execute_eq r script args w w1 cmds perr hp, ?_, ?_, ?_⟩
  · intro c hf hargs hc
    subst hc
    have hpos : args.length > 0 := List.length_pos.mpr hargs
    simp only [hf, resolved, runCommands, appendCalls_of_pos hargs, if_pos hpos]
    cases hi : (c.Interactive (c.AppendArgs args w1)).1 <;> simp
  · cases hf : r.parser.fatal perr
    · simp only [Bool.false_eq_true, if_false, resolved]
      split
      · simp [appendArgsCalls]
      · split
        · simp [appendArgsCalls]
        · next h0 h1 =>
          by_cases ha : args = []
          · subst ha
            simp [runCommands_appendArgs_nil]
          · have h2 := runCommands_appendArgs_length args cmds 0 perr w1
            have h3 : 0 < args.length := List.length_pos.mpr ha
            simp only [gt_iff_lt, not_and, not_lt] at h1
            have h4 := h1 h3
            simp only
            omega
    · simp [appendArgsCalls]
  · intro ha
    subst ha
    cases hf : r.parser.fatal perr
    · simp only [Bool.false_eq_true, if_false, resolved]
      split
      · rfl
      · split
        · rfl
        · simp [runCommands_appendArgs_nil]
    · simp [appendArgsCalls]

/-- C4: when `Parse` returns an empty pipeline list without a fatal error (nil,
or an error of which `IsMultipleDefinedScriptError` holds), `Execute` returns
`ErrKoolScriptNotFound` whatever the extra arguments are, and makes no call on
any step; the world is as `Parse` left it. -/
theorem Execute_script_not_found {σ : Type} (r : KoolRun σ) (script : String)
    (args : List String) (w w1 : σ) (perr : Option GoError)
    (hp : r.parser.Parse script w = (([], perr), w1))
    (hf : r.parser.fatal perr = false) :
    ∃ out, r.Execute (script :: args) w = some out ∧
      out.err = some GoError.ErrKoolScriptNotFound ∧
      out.calls = [] ∧ interactiveCalls out.calls = [] ∧ out.world = w1 := by
  refine ⟨_, Execute_eq r script args w w1 [] perr hp, ?_⟩
  simp [hf, resolved, interactiveCalls]

/-- C5: when `Parse` returns a non-nil error of which
`IsMultipleDefinedScriptError` does not hold, `Execute` returns exactly that
error, whatever the pipeline list and the extra arguments are, emits no warning
and makes no call on any step; the world is as `Parse` left it. -/
theorem Execute_fatal_parse_error {σ : Type} (r : KoolRun σ) (script : String)
    (args : List String) (w w1 : σ) (cmds : List (Command σ)) (e : GoError)
    (hp : r.parser.Parse script w = ((cmds, some e), w1))
    (hm : r.parser.IsMultipleDefinedScriptError e = false) :
    ∃ out, r.Execute (script :: args) w = some out ∧
      out.err = some e ∧ out.warnings = [] ∧ out.calls = [] ∧
      interactiveCalls out.calls = [] ∧ appendArgsCalls out.calls = [] ∧
      out.world = w1 := by
  refine ⟨_, Execute_eq r script args w w1 cmds (some e) hp, ?_⟩
  simp [Parser.fatal, hm, interactiveCalls, appendArgsCalls]

/-- C6: when `Parse` signals "multiple defined" (a non-nil error of which
`IsMultipleDefinedScriptError` holds), `Execute` emits the warning exactly once
and goes on with the list `cmds` that `Parse` returned: `r.commands` is `cmds`,
an empty `cmds` gives `ErrKoolScriptNotFound`, extra arguments with more than
one step give `ErrExtraArguments`, and otherwise the result, the calls and the
world are those of the loop over `cmds`.  When `Parse` returns a nil error,
`Execute` emits no warning. -/
theorem Execute_warning {σ : Type} (r : KoolRun σ) (script : String)
    (args : List String) (w w1 : σ) (cmds : List (Command σ)) (perr : Option GoError)
    (hp : r.parser.Parse script w = ((cmds, perr), w1)) :
    ∃ out, r.Execute (script :: args) w = some out ∧
      (∀ e, perr = some e → r.parser.IsMultipleDefinedScriptError e = true →
        out.warnings = [multipleDefinedWarning] ∧ out.commands = cmds ∧
        (cmds = [] → out.err = some GoError.ErrKoolScriptNotFound) ∧
        (args ≠ [] → 1 < cmds.length → out.err = some GoError.ErrExtraArguments) ∧
        (cmds ≠ [] → ¬ (args ≠ [] ∧ 1 < cmds.length) →
          out.err = (runCommands args cmds 0 none w1).err ∧
          out.calls = (runCommands args cmds 0 none w1).calls ∧
          out.world = (runCommands args cmds 0 none w1).world)) ∧
      (perr = none → out.warnings = []) := by
  refine ⟨_, Execute_eq r script args w w1 cmds perr hp, ?_, ?_⟩
  · intro e he hm
    subst he
    have hf : r.parser.fatal (some e) = false := by simp [Parser.fatal, hm]
    simp only [hf, Bool.false_eq_true, if_false, Option.isSome_some, if_true]
    refine ⟨by unfold resolved; split_ifs <;> rfl, by unfold resolved; split_ifs <;> rfl,
      ?_, ?_, ?_⟩
    · intro hc
      subst hc
      simp [resolved]
    · intro ha hl
      have h0 : ¬ cmds.length = 0 := by omega
      have h1 : args.length > 0 ∧ cmds.length > 1 := ⟨List.length_pos.mpr ha, hl⟩
      simp [resolved, if_neg h0, if_pos h1]
    · intro hne hok
      have h0 : ¬ cmds.length = 0 := fun h => hne (List.length_eq_zero.mp h)
      have h1 : ¬ (args.length > 0 ∧ cmds.length > 1) := by
        rintro ⟨h1, h2⟩
        exact hok ⟨List.length_pos.mp h1, h2⟩
      simp only [resolved, if_neg h0, if_neg h1]
      rw [runCommands_entry_err args cmds hne 0 (some e) none w1]
      exact ⟨rfl, rfl, rfl⟩
  · intro hn
    subst hn
    simp only [Parser.fatal, Bool.false_eq_true, if_false, Option.isSome_none]
    unfold resolved
    split_ifs <;> rfl

/-- C7: the "multiple defined" condition does not change the outcome.  Let two
runs differ only in what their parsers return for the script: the first the
list `cmds` with an error of which `IsMultipleDefinedScriptError` holds, the
second the same list with a nil error.  Then, for all extra arguments and all
behaviours of the steps, `Execute` returns the same error, makes the same calls
and leaves the same world in both.  In particular, when `cmds` is not empty and
every step succeeds (each step was launched and its `Interactive` returned
nil), `Execute` returns nil. -/
theorem Execute_multiple_defined_neutral {σ : Type} (r1 r2 : KoolRun σ) (script : String)
    (args : List String) (w w1 : σ) (cmds : List (Command σ)) (e : GoError)
    (hp1 : r1.parser.Parse script w = ((cmds, some e), w1))
    (hm : r1.parser.IsMultipleDefinedScriptError e = true)
    (hp2 : r2.parser.Parse script w = ((cmds, none), w1)) :
    ∃ o1 o2, r1.Execute (script :: args) w = some o1 ∧
      r2.Execute (script :: args) w = some o2 ∧
      o1.err = o2.err ∧ o1.calls = o2.calls ∧ o1.world = o2.world ∧
      (cmds ≠ [] → (∀ i, i < cmds.length → Call.Interactive i none ∈ o1.calls) →
        o1.err = none) := by
  refine ⟨_, _, Execute_eq r1 script args w w1 cmds (some e) hp1,
    Execute_eq r2 script args w w1 cmds none hp2, ?_⟩
  have hf : r1.parser.fatal (some e) = false := by simp [Parser.fatal, hm]
  have hf2 : r2.parser.fatal none = false := rfl
  simp only [hf, hf2, Bool.false_eq_true, if_false]
  by_cases hne : cmds = []
  · subst hne
    simp [resolved]
  · have h0 : ¬ cmds.length = 0 := fun h => hne (List.length_eq_zero.mp h)
    by_cases h1 : args.length > 0 ∧ cmds.length > 1
    · simp only [resolved, if_neg h0, if_pos h1, true_and]
      intro _ hall
      have := hall 0 (by omega)
      simp at this
    · simp only [resolved, if_neg h0, if_neg h1]
      rw [runCommands_entry_err args cmds hne 0 (some e) none w1]
      refine ⟨rfl, rfl, rfl, ?_⟩
      intro _ hall
      obtain ⟨k, hk, hc, _⟩ := runCommands_interactive args cmds hne 0 none w1
      have hmem := (mem_interactiveCalls _ k none).mpr (hall k hk)
      rw [hc] at hmem
      simp only [Nat.zero_add, List.mem_append, List.mem_map, List.mem_range, Prod.mk.injEq,
        List.mem_singleton] at hmem
      rcases hmem with ⟨j, hj, hjk, _⟩ | ⟨_, h⟩
      · omega
      · exact h.symm

/-- C8, as the code behaves: when the resolved script is a list of two steps
and the user supplies the extra argument `now`, `Execute` returns
`ErrExtraArguments`, appends `now` to no step and launches neither step. -/
theorem Execute_two_steps_extra_argument {σ : Type} (r : KoolRun σ) (script : String)
    (w w1 : σ) (c1 c2 : Command σ) (perr : Option GoError)
    (hp : r.parser.Parse script w = (([c1, c2], perr), w1))
    (hf : r.parser.fatal perr = false) :
    ∃ out, r.Execute [script, "now"] w = some out ∧
      out.err = some GoError.ErrExtraArguments ∧ out.calls = [] ∧ out.world = w1 := by
  refine ⟨_, Execute_eq r script ["now"] w w1 [c1, c2] perr hp, ?_⟩
  simp [hf, resolved]

/-- C8, as stated, fails: with the two steps `echo start` and `echo end` and the
extra argument `now`, `Execute` returns `ErrExtraArguments`, launches nothing
and leaves the arguments of both steps as they were; in particular it is not
the case that `echo start` and `echo end now` were launched. -/
theorem echo_scenario_launches_nothing :
    (echoRun.Execute ["greet", "now"] echoWorld).map
        (fun o => (o.err, o.world.launched, o.world.argv, o.calls))
      = some (some GoError.ErrExtraArguments, [], [["echo", "start"], ["echo", "end"]], []) ∧
    (echoRun.Execute ["greet", "now"] echoWorld).map (fun o => o.world.launched)
      ≠ some [["echo", "start"], ["echo", "end", "now"]] := by
  decide

/-! ### Theorems on `DefaultCommandRunFunction` -/

/-- The calls of the loop over the services from position `i` on: one block per
service reached, in the order of the list; the loop reaches every service
unless the process ends in an `Exit` call, which then is the call `Exit(1)` of
the last service reached, a failed one. -/
theorem runServices_calls {σ ω ρ : Type} (cmd : CobraCommand ω ρ) (args : List String)
    (services : List (KoolService σ ω ρ)) : ∀ (i : Nat) (w : σ),
    ∃ rets : List (Option GoError), rets.length ≤ services.length ∧
      (runServices cmd args services i w).calls
        = (rets.enumFrom i).flatMap (fun ir => serviceBlock cmd args ir.1 ir.2) ∧
      ((runServices cmd args services i w).exitCode = none →
        rets.length = services.length) ∧
      (∀ code, (runServices cmd args services i w).exitCode = some code →
        code = 1 ∧ ∃ before e, rets = before ++ [some e]) := by
  induction services with
  | nil =>
    intro i w
    exact ⟨[], Nat.le_refl _, rfl, fun _ => rfl, fun code h => by simp [runServices] at h⟩
  | cons s rest ih =>
    intro i w
    simp only [runServices]
    split
    · next err he =>
      split
      · next w4 hx =>
        obtain ⟨rets, hl, hc, hn, hs⟩ := ih (i + 1) w4
        refine ⟨some err :: rets, by simpa using hl, ?_, ?_, ?_⟩
        · simp [List.enumFrom, serviceBlock, hc]
        · intro h; simpa using hn h
        · intro code h
          obtain ⟨h1, before, e, hb⟩ := hs code h
          exact ⟨h1, some err :: before, e, by simp [hb]⟩
      · next w4 hx =>
        refine ⟨[some err], by simp, ?_, ?_, ?_⟩
        · simp [List.enumFrom, serviceBlock]
        · intro h; simp at h
        · intro code h
          simp only [Option.some.injEq] at h
          exact ⟨h.symm, [], err, rfl⟩
    · next he =>
      obtain ⟨rets, hl, hc, hn, hs⟩ := ih (i + 1)
        (s.Execute args (s.SetReader cmd.InOrStdin (s.SetWriter cmd.OutOrStdout w))).2
      refine ⟨none :: rets, by simpa using hl, ?_, ?_, ?_⟩
      · simp [List.enumFrom, serviceBlock, hc]
      · intro h; simpa using hn h
      · intro code h
        obtain ⟨h1, before, e, hb⟩ := hs code h
        exact ⟨h1, none :: before, e, by simp [hb]⟩

/-- The calls recorded by the loop are the calls made: made one by one on the
services, from the world at loop entry, they leave the world and the exit code
that the loop leaves. -/
theorem runServices_replay {σ ω ρ : Type} (cmd : CobraCommand ω ρ) (args : List String)
    (rest : List (KoolService σ ω ρ)) : ∀ (before : List (KoolService σ ω ρ)) (w : σ),
    replay (before ++ rest) (runServices cmd args rest before.length w).calls w
      = some ((runServices cmd args rest before.length w).world,
          (runServices cmd args rest before.length w).exitCode) := by
  induction rest with
  | nil => intro before w; simp [runServices, replay]
  | cons s rest ih =>
    intro before w
    have hget : (before ++ s :: rest)[before.length]? = some s := by
      rw [List.getElem?_append_right (Nat.le_refl _)]
      simp
    have ih1 := ih (before ++ [s])
    simp only [List.append_assoc, List.singleton_append, List.length_append,
      List.length_singleton] at ih1
    simp only [runServices]
    split
    · next err he =>
      split
      · next w4 hx =>
        simp only [replay, hget, he, if_true, hx]
        exact ih1 w4
      · next w4 hx =>
        simp [replay, hget, he, hx]
    · next he =>
      simp only [replay, hget, he, if_true]
      exact ih1 _

/-- When no `Exit` call can end the process, the loop returns to its caller. -/
theorem runServices_returns {σ ω ρ : Type} (cmd : CobraCommand ω ρ) (args : List String)
    (services : List (KoolService σ ω ρ))
    (hfake : ∀ s ∈ services, ∀ code w0, ∃ w1, s.Exit code w0 = ExitOutcome.returned w1) :
    ∀ (i : Nat) (w : σ), (runServices cmd args services i w).exitCode = none := by
  induction services with
  | nil => intro i w; rfl
  | cons s rest ih =>
    intro i w
    have ih1 := ih (fun t ht => hfake t (List.mem_cons_of_mem _ ht))
    simp only [runServices]
    split
    · next err he =>
      split
      · next w4 hx => exact ih1 _ _
      · next w4 hx =>
        obtain ⟨w1, h1⟩ := hfake s (List.mem_cons_self _ _) 1
          (s.Error err (s.Execute args (s.SetReader cmd.InOrStdin
            (s.SetWriter cmd.OutOrStdout w))).2)
        rw [h1] at hx
        cases hx
    · next he => exact ih1 _ _

/-- C9, as the code behaves: for every list of services and every argument
list, the function that `DefaultCommandRunFunction` returns processes the
services in the given order until the process ends.  Its calls are, service by
service for the services reached, `SetWriter`, `SetReader` and `Execute(args)`,
followed, exactly when that `Execute` returned a non-nil error, by `Error` with
the same error and `Exit` with code 1, and by nothing when it returned nil.
These calls, made in this order from the initial world, give the world and the
exit code the function leaves.  If the function returns, every service was
reached.  If the process ends, it ends in the call `Exit(1)` of the last service
reached, whose `Execute` failed, so with a non-zero status, and no later service
is processed.  With services whose `Exit` always returns (test doubles), the
function returns. -/
theorem DefaultCommandRunFunction_until_exit {σ ω ρ : Type}
    (services : List (KoolService σ ω ρ)) (cmd : CobraCommand ω ρ) (args : List String)
    (w : σ) :
    ∃ rets : List (Option GoError), rets.length ≤ services.length ∧
      (DefaultCommandRunFunction services cmd args w).calls
        = (rets.enumFrom 0).flatMap (fun ir => serviceBlock cmd args ir.1 ir.2) ∧
      replay services (DefaultCommandRunFunction services cmd args w).calls w
        = some ((DefaultCommandRunFunction services cmd args w).world,
            (DefaultCommandRunFunction services cmd args w).exitCode) ∧
      ((DefaultCommandRunFunction services cmd args w).exitCode = none →
        rets.length = services.length) ∧
      (∀ code, (DefaultCommandRunFunction services cmd args w).exitCode = some code →
        code = 1 ∧ code ≠ 0 ∧ ∃ before e, rets = before ++ [some e]) ∧
      ((∀ s ∈ services, ∀ code w0, ∃ w1, s.Exit code w0 = ExitOutcome.returned w1) →
        (DefaultCommandRunFunction services cmd args w).exitCode = none ∧
        rets.length = services.length) := by
  obtain ⟨rets, hl, hc, hn, hs⟩ := runServices_calls cmd args services 0 w
  have hr := runServices_replay cmd args services [] w
  refine ⟨rets, hl, hc, hr, hn, ?_, ?_⟩
  · intro code h
    obtain ⟨h1, hb⟩ := hs code h
    exact ⟨h1, by rw [h1]; decide, hb⟩
  · intro hfake
    have h0 := runServices_returns cmd args services hfake 0 w
    exact ⟨h0, hn h0⟩

/-- C9, as stated, fails: of two default services, whose `Exit` ends the
process, let the first fail.  The function calls `SetWriter`, `SetReader`,
`Execute`, `Error` and `Exit(1)` on the first and the process ends there with
status 1: none of `SetWriter`, `SetReader` and `Execute` is called on the second
service, and the world holds the lines of the first service only. -/
theorem default_exit_skips_later_services :
    (DefaultCommandRunFunction [defaultService "up" (some (GoError.other "boom")),
        defaultService "logs" none] stdCommand ["app"] []).calls
      = [ServiceCall.SetWriter 0 "stdout", ServiceCall.SetReader 0 "stdin",
         ServiceCall.Execute 0 ["app"] (some (GoError.other "boom")),
         ServiceCall.Error 0 (GoError.other "boom"), ServiceCall.Exit 0 1] ∧
    ServiceCall.SetWriter 1 "stdout" ∉
      (DefaultCommandRunFunction [defaultService "up" (some (GoError.other "boom")),
        defaultService "logs" none] stdCommand ["app"] []).calls ∧
    ServiceCall.SetReader 1 "stdin" ∉
      (DefaultCommandRunFunction [defaultService "up" (some (GoError.other "boom")),
        defaultService "logs" none] stdCommand ["app"] []).calls ∧
    ServiceCall.Execute 1 ["app"] none ∉
      (DefaultCommandRunFunction [defaultService "up" (some (GoError.other "boom")),
        defaultService "logs" none] stdCommand ["app"] []).calls ∧
    (DefaultCommandRunFunction [defaultService "up" (some (GoError.other "boom")),
        defaultService "logs" none] stdCommand ["app"] []).exitCode = some 1 ∧
    (DefaultCommandRunFunction [defaultService "up" (some (GoError.other "boom")),
        defaultService "logs" none] stdCommand ["app"] []).world
      = [Done.SetWriter "up" "stdout", Done.SetReader "up" "stdin",
         Done.Execute "up" ["app"], Done.Error "up" (GoError.other "boom"),
         Done.Exit "up" 1] := by
  decide

/-! ### Theorems on `DefaultParser` -/

theorem foldl_append_keys {V : Type} (l : List (String × V)) : ∀ (init : List String),
    l.foldl (fun presets kv => presets ++ [kv.1]) init = init ++ l.map Prod.fst := by
  induction l with
  | nil => intro init; simp
  | cons a l ih => intro init; simp [ih]

theorem lookup_isSome_iff {V : Type} (l : List (String × V)) (key : String) :
    (l.lookup key).isSome = true ↔ key ∈ l.map Prod.fst := by
  induction l with
  | nil => simp
  | cons a l ih =>
    obtain ⟨k, v⟩ := a
    by_cases h : key = k
    · subst h; simp [List.lookup]
    · have hb : (key == k) = false := by simpa using h
      simp [List.lookup, hb, h, ih]

theorem Exists_iff_mem (p : DefaultParser) (key : String) :
    p.Exists key = true ↔ key ∈ p.Presets.entries.map Prod.fst :=
  lookup_isSome_iff p.Presets.entries key

theorem GetPresets_perm (p : DefaultParser) :
    (p.GetPresets).Perm (p.Presets.entries.map Prod.fst) := by
  unfold DefaultParser.GetPresets
  split
  · next h =>
    rw [List.length_eq_zero.mp h]
    exact List.Perm.refl _
  · rw [foldl_append_keys, List.nil_append]
    exact List.perm_insertionSort _ _

theorem GetPresets_sorted (p : DefaultParser) :
    (p.GetPresets).Sorted (fun a b => a ≤ b) := by
  unfold DefaultParser.GetPresets
  split
  · exact List.sorted_nil
  · exact List.sorted_insertionSort _ _

/-- C10: for every `DefaultParser`, `GetPresets` returns each key of `Presets`
exactly once and nothing else (a name occurs once when `Exists` holds of it and
not at all otherwise, so it is in the result iff `Exists` returns true), the
result is in ascending order (even strictly), it is the same for every parser
with the same preset names, whatever the iteration order of its map, and it is
the empty list when there are no presets. -/
theorem GetPresets_spec (p : DefaultParser) :
    (∀ name, (p.GetPresets).count name = if p.Exists name then 1 else 0) ∧
    (∀ name, name ∈ p.GetPresets ↔ p.Exists name = true) ∧
    (p.GetPresets).Sorted (fun a b => a ≤ b) ∧
    (p.GetPresets).Sorted (fun a b => a < b) ∧
    (∀ q : DefaultParser, (∀ name, q.Exists name = p.Exists name) →
      q.GetPresets = p.GetPresets) ∧
    (p.Presets.entries = [] → p.GetPresets = []) := by
  have hperm := GetPresets_perm p
  have hnd : (p.GetPresets).Nodup := hperm.nodup_iff.mpr p.Presets.nodup
  refine ⟨?_, ?_, GetPresets_sorted p, (GetPresets_sorted p).lt_of_le hnd, ?_, ?_⟩
  · intro name
    rw [hperm.count_eq]
    by_cases h : p.Exists name = true
    · rw [if_pos h]
      exact List.count_eq_one_of_mem p.Presets.nodup ((Exists_iff_mem p name).mp h)
    · rw [if_neg h]
      exact List.count_eq_zero_of_not_mem (fun hm => h ((Exists_iff_mem p name).mpr hm))
  · intro name
    rw [hperm.mem_iff, Exists_iff_mem]
  · intro q hq
    have hkeys : (q.Presets.entries.map Prod.fst).Perm (p.Presets.entries.map Prod.fst) := by
      rw [List.perm_ext_iff_of_nodup q.Presets.nodup p.Presets.nodup]
      intro name
      rw [← Exists_iff_mem, ← Exists_iff_mem, hq]
    exact List.eq_of_perm_of_sorted (((GetPresets_perm q).trans hkeys).trans hperm.symm)
      (GetPresets_sorted q) (GetPresets_sorted p)
  · intro h
    simp [DefaultParser.GetPresets, h]

/-! ### The theorems at concrete inputs -/

/-- Witness of C1: three steps of which the second fails, no extra arguments. -/
theorem Execute_fail_fast_witness :
    (failRun none).parser.fatal none = false ∧
    ([stepCommand 0, stepCommand 1, stepCommand 2] : List (Command StepWorld)) ≠ [] ∧
    (∃ out, (failRun none).Execute ["ci"] failWorld = some out ∧
      ∃ k, k < 3 ∧
        interactiveCalls out.calls
          = (List.range k).map (fun j => (j, (none : Option GoError))) ++ [(k, out.err)] ∧
        (out.err = none → k + 1 = 3)) ∧
    ((failRun none).Execute ["ci"] failWorld).map
        (fun o => (o.err, o.world.launched, interactiveCalls o.calls))
      = some (some (GoError.other "exit status 2"), [["make", "lint"], ["make", "test"]],
          [(0, none), (1, some (GoError.other "exit status 2"))]) :=
  ⟨rfl, by simp,
    Execute_fail_fast (failRun none) "ci" [] failWorld failWorld
      [stepCommand 0, stepCommand 1, stepCommand 2] none rfl rfl (by simp) (by simp),
    by decide⟩

/-- Witness of C2: two steps and the extra argument `now`. -/
theorem Execute_extra_arguments_witness :
    echoRun.parser.fatal none = false ∧ ["now"] ≠ ([] : List String) ∧
    ∃ out, echoRun.Execute ["greet", "now"] echoWorld = some out ∧
      out.err = some GoError.ErrExtraArguments ∧
      out.calls = [] ∧ interactiveCalls out.calls = [] ∧ appendArgsCalls out.calls = [] ∧
      out.world = echoWorld :=
  ⟨rfl, by simp,
    Execute_extra_arguments echoRun "greet" ["now"] echoWorld echoWorld
      [stepCommand 0, stepCommand 1] none rfl rfl (by simp) (by simp)⟩

/-- Witness of C3: one step and the extra arguments `now`, `then`; the process
is launched with the arguments `end`, `now`, `then`. -/
theorem Execute_append_args_witness :
    (∃ out, (singleRun none).Execute ["greet", "now", "then"] echoWorld = some out ∧
      out.calls = [Call.AppendArgs 0 ["now", "then"], Call.Interactive 0 none] ∧
      (appendArgsCalls out.calls).length ≤ 1) ∧
    ((singleRun none).Execute ["greet", "now", "then"] echoWorld).map
        (fun o => o.world.launched) = some [["echo", "end", "now", "then"]] := by
  refine ⟨?_, by decide⟩
  obtain ⟨out, h, h1, h2, _⟩ := Execute_append_args (singleRun none) "greet" ["now", "then"]
    echoWorld echoWorld [stepCommand 1] none rfl
  exact ⟨out, h, (h1 (stepCommand 1) rfl (by simp) rfl).1, h2⟩

/-- Witness of C4: a parser that finds no step and signals "multiple defined". -/
theorem Execute_script_not_found_witness :
    (fixedParser [] (some errMultiple)).fatal (some errMultiple) = false ∧
    ∃ out, (KoolRun.mk (fixedParser [] (some errMultiple)) []).Execute ["deploy", "now"]
        echoWorld = some out ∧
      out.err = some GoError.ErrKoolScriptNotFound ∧
      out.calls = [] ∧ interactiveCalls out.calls = [] ∧ out.world = echoWorld :=
  ⟨rfl, Execute_script_not_found (KoolRun.mk (fixedParser [] (some errMultiple)) []) "deploy"
    ["now"] echoWorld echoWorld (some errMultiple) rfl rfl⟩

/-- Witness of C5: a parser that returns one step together with a fatal error. -/
theorem Execute_fatal_parse_error_witness :
    (singleRun (some (GoError.other "yaml"))).parser.IsMultipleDefinedScriptError
        (GoError.other "yaml") = false ∧
    ∃ out, (singleRun (some (GoError.other "yaml"))).Execute ["greet", "now"] echoWorld
        = some out ∧
      out.err = some (GoError.other "yaml") ∧ out.warnings = [] ∧ out.calls = [] ∧
      interactiveCalls out.calls = [] ∧ appendArgsCalls out.calls = [] ∧
      out.world = echoWorld :=
  ⟨by decide, Execute_fatal_parse_error (singleRun (some (GoError.other "yaml"))) "greet"
    ["now"] echoWorld echoWorld [stepCommand 1] (GoError.other "yaml") rfl (by decide)⟩

/-- Witness of C6: three steps found in more than one file: one warning, and
the steps run as far as the failing one. -/
theorem Execute_warning_witness :
    (∃ out, (failRun (some errMultiple)).Execute ["ci"] failWorld = some out ∧
      out.warnings = [multipleDefinedWarning]) ∧
    ((failRun (some errMultiple)).Execute ["ci"] failWorld).map
        (fun o => (o.err, o.warnings, o.world.launched))
      = some (some (GoError.other "exit status 2"), [multipleDefinedWarning],
          [["make", "lint"], ["make", "test"]]) := by
  refine ⟨?_, by decide⟩
  obtain ⟨out, h, h1, _⟩ := Execute_warning (failRun (some errMultiple)) "ci" []
    failWorld failWorld [stepCommand 0, stepCommand 1, stepCommand 2] (some errMultiple) rfl
  exact ⟨out, h, (h1 errMultiple rfl (by decide)).1⟩

/-- Witness of C7: one step with the extra argument `now`, once found in more
than one file and once in one file only. -/
theorem Execute_multiple_defined_neutral_witness :
    (singleRun (some errMultiple)).parser.IsMultipleDefinedScriptError errMultiple = true ∧
    ∃ o1 o2, (singleRun (some errMultiple)).Execute ["greet", "now"] echoWorld = some o1 ∧
      (singleRun none).Execute ["greet", "now"] echoWorld = some o2 ∧
      o1.err = o2.err ∧ o1.calls = o2.calls ∧ o1.world = o2.world ∧
      (([stepCommand 1] : List (Command StepWorld)) ≠ [] →
        (∀ i, i < 1 → Call.Interactive i none ∈ o1.calls) → o1.err = none) :=
  ⟨by decide, Execute_multiple_defined_neutral (singleRun (some errMultiple)) (singleRun none)
    "greet" ["now"] echoWorld echoWorld [stepCommand 1] errMultiple rfl (by decide) rfl⟩

/-- Witness of C8 as the code behaves: the steps `echo start` and `echo end`
with the extra argument `now`. -/
theorem Execute_two_steps_extra_argument_witness :
    echoRun.parser.fatal none = false ∧
    ∃ out, echoRun.Execute ["greet", "now"] echoWorld = some out ∧
      out.err = some GoError.ErrExtraArguments ∧ out.calls = [] ∧ out.world = echoWorld :=
  ⟨rfl, Execute_two_steps_extra_argument echoRun "greet" echoWorld echoWorld
    (stepCommand 0) (stepCommand 1) none rfl rfl⟩

/-- Witness of C9 as the code behaves: three services of which the second
fails, once with an `Exit` that returns (all three are processed and the
function returns) and once with an `Exit` that ends the process (the third is
not reached). -/
theorem DefaultCommandRunFunction_until_exit_witness :
    (∃ rets : List (Option GoError), rets.length ≤ 3 ∧
      (DefaultCommandRunFunction [recordingService "up" none true,
          recordingService "logs" (some (GoError.other "boom")) true,
          recordingService "down" none true] stdCommand ["app"] []).calls
        = (rets.enumFrom 0).flatMap (fun ir => serviceBlock stdCommand ["app"] ir.1 ir.2) ∧
      (DefaultCommandRunFunction [recordingService "up" none true,
          recordingService "logs" (some (GoError.other "boom")) true,
          recordingService "down" none true] stdCommand ["app"] []).exitCode = none ∧
      rets.length = 3) ∧
    (DefaultCommandRunFunction [recordingService "up" none true,
        recordingService "logs" (some (GoError.other "boom")) true,
        recordingService "down" none true] stdCommand ["app"] []).world
      = [Done.SetWriter "up" "stdout", Done.SetReader "up" "stdin",
         Done.Execute "up" ["app"],
         Done.SetWriter "logs" "stdout", Done.SetReader "logs" "stdin",
         Done.Execute "logs" ["app"], Done.Error "logs" (GoError.other "boom"),
         Done.Exit "logs" 1,
         Done.SetWriter "down" "stdout", Done.SetReader "down" "stdin",
         Done.Execute "down" ["app"]] ∧
    (DefaultCommandRunFunction [defaultService "up" none,
        defaultService "logs" (some (GoError.other "boom")),
        defaultService "down" none] stdCommand ["app"] []).world
      = [Done.SetWriter "up" "stdout", Done.SetReader "up" "stdin",
         Done.Execute "up" ["app"],
         Done.SetWriter "logs" "stdout", Done.SetReader "logs" "stdin",
         Done.Execute "logs" ["app"], Done.Error "logs" (GoError.other "boom"),
         Done.Exit "logs" 1] ∧
    (DefaultCommandRunFunction [defaultService "up" none,
        defaultService "logs" (some (GoError.other "boom")),
        defaultService "down" none] stdCommand ["app"] []).exitCode = some 1 := by
  refine ⟨?_, by decide, by decide, by decide⟩
  obtain ⟨rets, hl, hc, _, _, _, hf⟩ := DefaultCommandRunFunction_until_exit
    [recordingService "up" none true,
      recordingService "logs" (some (GoError.other "boom")) true,
      recordingService "down" none true] stdCommand ["app"] []
  have h := hf (by
    intro s hs code w0
    simp only [List.mem_cons, List.mem_singleton, List.not_mem_nil, or_false] at hs
    rcases hs with h | h | h <;> subst h <;> exact ⟨_, rfl⟩)
  exact ⟨rets, hl, hc, h.1, h.2⟩

/-- Witness of C10: the same two presets visited in either order give the same
list. -/
theorem GetPresets_spec_witness :
    twoPresetsReversed.GetPresets = twoPresets.GetPresets ∧
    (twoPresets.GetPresets).Sorted (fun a b => a ≤ b) ∧
    (twoPresets.GetPresets).count "laravel" = 1 := by
  have h := GetPresets_spec twoPresets
  refine ⟨h.2.2.2.2.1 twoPresetsReversed ?_, h.2.2.1, ?_⟩
  · intro name
    simp only [DefaultParser.Exists, GoMap.has, twoPresetsReversed, twoPresets, List.lookup]
    by_cases h1 : name = "laravel"
    · subst h1; decide
    · by_cases h2 : name = "symfony"
      · subst h2; decide
      · have b1 : (name == "laravel") = false := by simpa using h1
        have b2 : (name == "symfony") = false := by simpa using h2
        simp [b1, b2]
  · rw [h.1 "laravel"]
    decide

end Kool
